import Mathlib

/-!
Verification development for the modrinth/oracle malware scanner.

The Rust sources (src/scan.rs, src/app.rs) are shallowly embedded below:
pure computations become Lean functions, the concurrent traversal engine
`compute_file_hashes` becomes a small-step scheduler model, and the GUI
orchestrator's scan/filter logic becomes an event-driven state machine.
Machine integers are modelled as `Nat` with explicit `% 2^32` where 32-bit
wraparound matters (the SHA-1 word arithmetic).
-/

deriving instance DecidableEq for Except

namespace Oracle

/-- 2^32, the modulus of 32-bit word arithmetic used by SHA-1. -/
def M32 : Nat := 4294967296

/-- Rotate a 32-bit word left by `n` (for `n < 32`). -/
def rotl (n x : Nat) : Nat :=
  (((x % M32) <<< n) % M32) ||| ((x % M32) >>> (32 - n))

/-- Big-endian byte encoding of `n` on `k` bytes (most significant first). -/
def beBytes : Nat → Nat → List Nat
  | 0, _ => []
  | k + 1, n => beBytes k (n / 256) ++ [n % 256]

/-- SHA-1 (Merkle–Damgård) padding: append 0x80, zero bytes up to 56 mod 64,
then the bit length on 8 big-endian bytes. -/
def sha1Pad (msg : List Nat) : List Nat :=
  let padZeros := (55 + 64 - msg.length % 64) % 64
  msg ++ [128] ++ List.replicate padZeros 0 ++ beBytes 8 (8 * msg.length)

/-- Group a byte list into big-endian 32-bit words. -/
def wordsBE : List Nat → List Nat
  | b0 :: b1 :: b2 :: b3 :: rest =>
      (((b0 * 256 + b1) * 256 + b2) * 256 + b3) :: wordsBE rest
  | _ => []

/-- Message-schedule extension step, keeping the words in reverse order
(head is the most recent word). -/
def extendLoop : List Nat → Nat → List Nat
  | acc, 0 => acc
  | acc, k + 1 =>
      let w := rotl 1 ((acc.getD 2 0) ^^^ (acc.getD 7 0) ^^^
        (acc.getD 13 0) ^^^ (acc.getD 15 0))
      extendLoop (w :: acc) k

/-- Expand 16 message words into the 80-word SHA-1 schedule. -/
def expandWords (ws : List Nat) : List Nat :=
  (extendLoop ws.reverse 64).reverse

/-- The SHA-1 round function, by round index. -/
def sha1F (i b c d : Nat) : Nat :=
  if i < 20 then (b &&& c) ||| ((b ^^^ (M32 - 1)) &&& d)
  else if i < 40 then b ^^^ c ^^^ d
  else if i < 60 then (b &&& c) ||| (b &&& d) ||| (c &&& d)
  else b ^^^ c ^^^ d

/-- The SHA-1 round constants, by round index. -/
def sha1K (i : Nat) : Nat :=
  if i < 20 then 0x5A827999
  else if i < 40 then 0x6ED9EBA1
  else if i < 60 then 0x8F1BBCDC
  else 0xCA62C1D6

/-- The five 32-bit chaining words of the SHA-1 state. -/
structure Sha1Core where
  h0 : Nat
  h1 : Nat
  h2 : Nat
  h3 : Nat
  h4 : Nat
deriving DecidableEq

/-- One SHA-1 round applied to the working registers. -/
def roundStep (st : Nat × Nat × Nat × Nat × Nat) (iw : Nat × Nat) :
    Nat × Nat × Nat × Nat × Nat :=
  let a := st.1
  let b := st.2.1
  let c := st.2.2.1
  let d := st.2.2.2.1
  let e := st.2.2.2.2
  let temp := (rotl 5 a + sha1F iw.1 b c d + e + sha1K iw.1 + iw.2) % M32
  (temp, a, rotl 30 b, c, d)

/-- SHA-1 compression: absorb one 64-byte block into the chaining state. -/
def processBlock (h : Sha1Core) (block : List Nat) : Sha1Core :=
  let ws := expandWords (wordsBE block)
  let fin := ((List.range 80).zip ws).foldl roundStep
    (h.h0, h.h1, h.h2, h.h3, h.h4)
  { h0 := (h.h0 + fin.1) % M32,
    h1 := (h.h1 + fin.2.1) % M32,
    h2 := (h.h2 + fin.2.2.1) % M32,
    h3 := (h.h3 + fin.2.2.2.1) % M32,
    h4 := (h.h4 + fin.2.2.2.2) % M32 }

/-- Split a list into consecutive chunks of length `n` (the last chunk may be
shorter); returns `[]` when `n = 0`. -/
def chunksOf (n : Nat) (l : List Nat) : List (List Nat) :=
  if h : n = 0 ∨ l = [] then []
  else l.take n :: chunksOf n (l.drop n)
termination_by l.length
decreasing_by
  simp only [List.length_drop]
  push_neg at h
  have h1 : 0 < n := Nat.pos_of_ne_zero h.1
  have h2 : 0 < l.length := List.length_pos.mpr h.2
  omega

/-- The SHA-1 initial chaining value. -/
def sha1Init : Sha1Core :=
  { h0 := 0x67452301, h1 := 0xEFCDAB89, h2 := 0x98BADCFE,
    h3 := 0x10325476, h4 := 0xC3D2E1F0 }

/-- SHA-1 of a byte list, as the 20-byte digest. -/
def sha1Bytes (msg : List Nat) : List Nat :=
  let hsh := (chunksOf 64 (sha1Pad msg)).foldl processBlock sha1Init
  beBytes 4 hsh.h0 ++ beBytes 4 hsh.h1 ++ beBytes 4 hsh.h2 ++
    beBytes 4 hsh.h3 ++ beBytes 4 hsh.h4

/-- Lowercase hexadecimal digit for `n < 16`. -/
def hexDigit (n : Nat) : Char :=
  if n < 10 then Char.ofNat (48 + n) else Char.ofNat (87 + n)

/-- The character list of the lowercase hex encoding of a byte list. -/
def hexChars (bytes : List Nat) : List Char :=
  bytes.foldr (fun b acc => hexDigit (b / 16) :: hexDigit (b % 16) :: acc) []

/-- SHA-1 of a byte list, encoded as a lowercase hexadecimal string
(the model of `format!("{:x}", hasher.finalize())`). -/
def sha1Hex (msg : List Nat) : String :=
  String.mk (hexChars (sha1Bytes msg))

/-- Model of the `sha1` crate's streaming hasher: `update` appends input
bytes to the absorbed message, `finalize` digests the absorbed message.
This is the documented semantics of the crate's incremental API. -/
structure Sha1 where
  data : List Nat
deriving DecidableEq

/-- `Sha1::new()`: a hasher that has absorbed nothing. -/
def Sha1.new : Sha1 := ⟨[]⟩

/-- `hasher.update(chunk)`: absorb a chunk of bytes. -/
def Sha1.update (s : Sha1) (chunk : List Nat) : Sha1 := ⟨s.data ++ chunk⟩

/-- `format!("{:x}", hasher.finalize())`: digest of everything absorbed,
in lowercase hex. -/
def Sha1.finalizeHex (s : Sha1) : String := sha1Hex s.data

/-- `scan.rs`: the 1 MiB read buffer size of `compute_file_sha1`. -/
def BUFFER_SIZE : Nat := 1024 * 1024

/-- The read loop of `compute_file_sha1` (scan.rs lines 70-76): each
`file.read` fills at most `BUFFER_SIZE` bytes, the hasher is updated with
exactly the bytes read, and the loop stops at end-of-stream. -/
def hashReadLoop (hasher : Sha1) (bytes : List Nat) : Sha1 :=
  if bytes = [] then hasher
  else hashReadLoop (hasher.update (bytes.take BUFFER_SIZE))
    (bytes.drop BUFFER_SIZE)
termination_by bytes.length
decreasing_by
  simp only [List.length_drop]
  have h2 : 0 < bytes.length := List.length_pos.mpr (by assumption)
  have hb : 0 < BUFFER_SIZE := by decide
  omega

/-- `scan.rs` `ScanError`: I/O failure, directory-walk failure, or a failed
thread join. -/
inductive ScanError
  | IOErr (msg : String)
  | WalkDir (msg : String)
  | JoinError
deriving DecidableEq

/-- `compute_file_sha1` (scan.rs lines 63-79). A file whose open or read
fails is `Except.error msg`; a file readable to end-of-stream is
`Except.ok bytes`. On success the chunked read loop runs to end-of-stream
and the hex digest is returned; any I/O failure propagates as
`ScanError.IOErr`. -/
def compute_file_sha1 (content : Except String (List Nat)) :
    Except ScanError String :=
  match content with
  | .error e => .error (.IOErr e)
  | .ok bytes => .ok ((hashReadLoop Sha1.new bytes).finalizeHex)

/-- `scan.rs` lines 11-17: the compiled-in list of known-malicious SHA-1
digests (note the duplicated last entry, exactly as in the source). -/
def INFECTED_HASHES : List String :=
  ["179b5da318604f97616b5108f305e2a8e4609484",
   "1a1c4dcae846866c58cc1abf71fb7f7aa4e7352a",
   "e4d55310039b965fce6756da5286b481cfb09946",
   "2f47e57a6bedc729359ffaf6f0149876008b5cc3",
   "2f47e57a6bedc729359ffaf6f0149876008b5cc3"]

/-- The digest→path mapping (`DashMap<String, PathBuf>`), modelled as an
association list whose keys are kept distinct by insertion. -/
abbrev DMap := List (String × String)

/-- `DashMap::insert`: associate `k` with `v`, replacing any previous
association of `k` (last writer wins). -/
def dmapInsert (m : DMap) (k v : String) : DMap :=
  (k, v) :: m.filter (fun p => decide (p.1 ≠ k))

/-- Lookup in the digest→path mapping. -/
def dmapGet (m : DMap) (k : String) : Option String :=
  (m.find? (fun p => decide (p.1 = k))).map Prod.snd

/-- A filesystem entry yielded by the `WalkDir` iterator: its path, whether
`entry.path().is_file()` holds, and — for regular files — the byte content
(`Except.error` when opening or reading the file fails). -/
structure FileEntry where
  path : String
  isFile : Bool
  content : Except String (List Nat)
deriving DecidableEq

/-- One item of the `WalkDir::new(dir).follow_links(true)` iterator: either
a filesystem entry or a directory-walk error. -/
abbrev WalkEntry := Except String FileEntry

/-- The regular files among a walk listing, in traversal order. -/
def entryFiles (l : List WalkEntry) : List FileEntry :=
  l.filterMap (fun x =>
    match x with
    | .ok e => if e.isFile then some e else none
    | .error _ => none)

/-- Whether a file's content can be read to end-of-stream. -/
def readableB (e : FileEntry) : Bool :=
  match e.content with
  | .ok _ => true
  | .error _ => false

/-- State of one execution of `compute_file_hashes` (scan.rs lines 29-61):
`remaining` is the unvisited tail of the walk iterator; `pending` are the
spawned hashing threads whose bodies have not yet run (each holds one clone
of the shared map's `Arc`); `executed` are the threads whose bodies have
run; `discovered`/`completed` are the two atomic counters; `hashes` is the
shared `DashMap`; `status` is `some r` once the function has returned `r`. -/
structure EngineState where
  remaining : List WalkEntry
  pending : List FileEntry
  executed : List FileEntry
  discovered : Nat
  completed : Nat
  hashes : DMap
  status : Option (Except ScanError DMap)
deriving DecidableEq

/-- The state in which `compute_file_hashes` starts on a walk listing. -/
def initState (listing : List WalkEntry) : EngineState :=
  { remaining := listing, pending := [], executed := [],
    discovered := 0, completed := 0, hashes := [], status := none }

/-- A scheduler decision: let the orchestrator thread take its next step
(`walk`), or run the body of the `i`-th pending hashing thread (`run i`). -/
inductive SchedChoice
  | walk
  | run (i : Nat)
deriving DecidableEq

/-- Body of one spawned hashing thread (scan.rs lines 45-51): on hashing
success, insert {digest → path} into the shared map and increment the
completed counter; on failure do nothing. -/
def runBody (s : EngineState) (e : FileEntry) : EngineState :=
  match compute_file_sha1 e.content with
  | .ok h =>
      { s with hashes := dmapInsert s.hashes h e.path,
               completed := s.completed + 1 }
  | .error _ => s

/-- One scheduler step of the `compute_file_hashes` execution. An
orchestrator step pulls the next walk entry: a walk error returns
immediately (`entry?`) with the already-spawned threads still pending; a
regular file increments the discovered counter and spawns a thread; once
the iterator is exhausted the orchestrator joins all threads and returns
the map only when none is pending. A `run i` step executes a pending
thread's body. After the function has returned, the state is frozen. -/
def engineStep (s : EngineState) (c : SchedChoice) : EngineState :=
  match s.status with
  | some _ => s
  | none =>
    match c with
    | .walk =>
      match s.remaining with
      | [] =>
          if s.pending.isEmpty then
            { s with status := some (.ok s.hashes) }
          else s
      | .error msg :: rest =>
          { s with remaining := rest,
                   status := some (.error (.WalkDir msg)) }
      | .ok e :: rest =>
          if e.isFile then
            { s with remaining := rest,
                     discovered := s.discovered + 1,
                     pending := s.pending ++ [e] }
          else
            { s with remaining := rest }
    | .run i =>
      match s.pending[i]? with
      | none => s
      | some e =>
          runBody { s with pending := s.pending.eraseIdx i,
                           executed := s.executed ++ [e] } e

/-- The engine state after running a schedule from the initial state. -/
def runSched (listing : List WalkEntry) (cs : List SchedChoice) :
    EngineState :=
  cs.foldl engineStep (initState listing)

/-- Number of live references to the shared `Arc<DashMap>`: the
orchestrator's original plus one clone per spawned thread whose body has
not finished. -/
def liveClones (s : EngineState) : Nat := 1 + s.pending.length

/-- `Arc::try_unwrap(..).unwrap()` (scan.rs line 60): succeeds exactly when
the reference count is 1; `none` is the panicking branch. -/
def tryUnwrap (refcount : Nat) (m : DMap) : Option DMap :=
  if refcount = 1 then some m else none

/-- The orchestrator's filter (app.rs lines 138-143): iterate the engine's
digest→path map and insert into a fresh map exactly the entries whose
digest is in `INFECTED_HASHES`. -/
def filterInfected (res : DMap) : DMap :=
  res.foldl (fun acc kv =>
    if INFECTED_HASHES.contains kv.1 then dmapInsert acc kv.1 kv.2
    else acc) []

/-- Model of a filesystem for `remove_files`: the set of existing file
paths, and the paths whose deletion fails (e.g. permission denied). -/
structure FS where
  files : List String
  failing : List String
deriving DecidableEq

/-- `file.exists()`. -/
def fileExists (fs : FS) (p : String) : Bool := fs.files.contains p

/-- `std::fs::remove_file`: fails on a failing path, otherwise removes it. -/
def removeFile (fs : FS) (p : String) : Except ScanError FS :=
  if fs.failing.contains p then .error (.IOErr ("cannot remove " ++ p))
  else .ok { fs with files := fs.files.filter (fun q => decide (q ≠ p)) }

/-- `remove_files` (scan.rs lines 81-88): for each path in order, delete it
if it still exists (propagating the first deletion error and stopping), and
skip it silently otherwise. Returns the final filesystem alongside the
result. -/
def remove_files (fs : FS) : List String → FS × Except ScanError Unit
  | [] => (fs, .ok ())
  | p :: ps =>
    if fileExists fs p then
      match removeFile fs p with
      | .ok fs1 => remove_files fs1 ps
      | .error e => (fs, .error e)
    else remove_files fs ps

/-- The GUI state relevant to scan lifecycle (app.rs `TemplateApp`):
`scanning` and the completion flag `scan_status`, plus the two shared
counters (`total_count` = discovered, `current_progress` = completed). -/
structure AppState where
  scanning : Bool
  scan_status : Bool
  total_count : Nat
  current_progress : Nat
deriving DecidableEq

/-- `TemplateApp::default()`: fresh app state; the counter and flag fields
are `#[serde(skip)]`, so a restored app also starts from these values. -/
def appInit : AppState :=
  { scanning := false, scan_status := false,
    total_count := 0, current_progress := 0 }

/-- Events observable on the app state: the user clicks "Begin scan" (only
offered while `!scanning && !scan_status`, app.rs line 131); the scan
thread discovers a file, completes a hash, or finishes. -/
inductive AppEvent
  | beginClick
  | discover
  | complete
  | finish
deriving DecidableEq

/-- Whether the "Begin scan" button is shown (app.rs line 131). -/
def beginEnabled (s : AppState) : Bool := !s.scanning && !s.scan_status

/-- Whether a scan thread is alive (spawned and not yet finished), i.e.
counter increments can occur. -/
def scanActive (s : AppState) : Bool := s.scanning && !s.scan_status

/-- App-state transition for one event. A begin click sets `scanning` (and
spawns the scan thread); counter increments and the completion flag can
only come from a live scan thread. -/
def appStep (s : AppState) : AppEvent → AppState
  | .beginClick => if beginEnabled s then { s with scanning := true } else s
  | .discover =>
      if scanActive s then { s with total_count := s.total_count + 1 } else s
  | .complete =>
      if scanActive s then
        { s with current_progress := s.current_progress + 1 }
      else s
  | .finish => if scanActive s then { s with scan_status := true } else s

/-- The app state reached from startup by a sequence of events. -/
def appRun (evs : List AppEvent) : AppState := evs.foldl appStep appInit

/-- Execution invariant of `compute_file_hashes`: traversal position and
counters agree with the walked prefix, dispatched work is split between
pending and executed threads, the completed counter counts the executed
threads whose hashing succeeded, the shared map has pairwise-distinct
digest keys and holds exactly the successful hashing results, and a return
value is consistent with the state at the moment of return. -/
structure EngInv (listing : List WalkEntry) (s : EngineState) : Prop where
  walked : ∃ pre, listing = pre ++ s.remaining ∧
    s.discovered = (entryFiles pre).length ∧
    (s.pending ++ s.executed).Perm (entryFiles pre)
  completed_eq : s.completed = (s.executed.filter readableB).length
  keys_nodup : (s.hashes.map Prod.fst).Nodup
  hashes_src : ∀ kv ∈ s.hashes, ∃ e ∈ s.executed, ∃ b,
    e.content = Except.ok b ∧ kv.1 = sha1Hex b ∧ kv.2 = e.path
  exec_keys : ∀ e ∈ s.executed, ∀ b, e.content = Except.ok b →
    sha1Hex b ∈ s.hashes.map Prod.fst
  status_ok : ∀ m, s.status = some (Except.ok m) →
    m = s.hashes ∧ s.remaining = [] ∧ s.pending = []
  status_err : ∀ er, s.status = some (Except.error er) →
    ∃ msg, er = ScanError.WalkDir msg

/-- Concrete scenario of the spec: a root directory holding one regular
file whose content cannot be read (permission denied). -/
def lockedListing : List WalkEntry :=
  [Except.ok ⟨"/root", false, Except.ok []⟩,
   Except.ok ⟨"/root/locked.bin", true, Except.error "permission denied"⟩]

/-- A complete schedule for `lockedListing`: walk both entries, run the
single hashing thread, then join and return. -/
def lockedSched : List SchedChoice :=
  [SchedChoice.walk, SchedChoice.walk, SchedChoice.run 0, SchedChoice.walk]

/-- A walk listing whose second item is a directory-walk error, hit after a
regular file has already been dispatched for hashing. -/
def badWalkListing : List WalkEntry :=
  [Except.ok ⟨"/r/a.jar", true, Except.ok []⟩, Except.error "walk failure"]

/-- A concrete filesystem for exercising `remove_files`: three files, the
deletion of `/b` fails (e.g. permission denied). -/
def fs0 : FS := { files := ["/a", "/b", "/c"], failing := ["/b"] }

theorem hashReadLoop_absorbs_aux :
    ∀ (n : Nat) (bytes : List Nat), bytes.length ≤ n →
      ∀ hs : Sha1, hashReadLoop hs bytes = ⟨hs.data ++ bytes⟩ := by
  intro n
  induction n with
  | zero =>
    intro bytes hlen hs
    have hb : bytes = [] := List.eq_nil_of_length_eq_zero (Nat.le_zero.mp hlen)
    subst hb
    unfold hashReadLoop
    simp
  | succ k ih =>
    intro bytes hlen hs
    unfold hashReadLoop
    by_cases hb : bytes = []
    · simp [hb]
    · rw [if_neg hb]
      rw [ih (bytes.drop BUFFER_SIZE) (by
        have h2 : 0 < bytes.length := List.length_pos.mpr hb
        have hbuf : 0 < BUFFER_SIZE := by norm_num [BUFFER_SIZE]
        simp only [List.length_drop]
        omega)]
      simp [Sha1.update, List.append_assoc]

theorem hashReadLoop_eq_append (hs : Sha1) (bytes : List Nat) :
    hashReadLoop hs bytes = ⟨hs.data ++ bytes⟩ :=
  hashReadLoop_absorbs_aux bytes.length bytes le_rfl hs

theorem compute_file_sha1_ok (bytes : List Nat) :
    compute_file_sha1 (Except.ok bytes) = Except.ok (sha1Hex bytes) := by
  show Except.ok ((hashReadLoop Sha1.new bytes).finalizeHex) = _
  rw [hashReadLoop_eq_append]
  simp [Sha1.finalizeHex, Sha1.new]

theorem compute_file_sha1_err (msg : String) :
    compute_file_sha1 (Except.error msg) = Except.error (ScanError.IOErr msg) :=
  rfl

theorem chunksOf_nil (n : Nat) : chunksOf n [] = [] := by
  unfold chunksOf
  simp

theorem chunksOf_zero (l : List Nat) : chunksOf 0 l = [] := by
  unfold chunksOf
  simp

theorem chunksOf_cons (n : Nat) (l : List Nat) (hn : n ≠ 0) (hl : l ≠ []) :
    chunksOf n l = l.take n :: chunksOf n (l.drop n) := by
  conv_lhs => unfold chunksOf
  rw [dif_neg (not_or.mpr ⟨hn, hl⟩)]

theorem chunksOf_join_aux :
    ∀ (m n : Nat) (l : List Nat), n ≠ 0 → l.length ≤ m →
      (chunksOf n l).flatten = l := by
  intro m
  induction m with
  | zero =>
    intro n l hn hl
    have : l = [] := List.eq_nil_of_length_eq_zero (Nat.le_zero.mp hl)
    subst this
    rw [chunksOf_nil]
    rfl
  | succ k ih =>
    intro n l hn hl
    by_cases hnil : l = []
    · subst hnil
      rw [chunksOf_nil]
      rfl
    · rw [chunksOf_cons n l hn hnil, List.flatten_cons,
        ih n (l.drop n) hn (by
          have h2 : 0 < l.length := List.length_pos.mpr hnil
          have h3 : 0 < n := Nat.pos_of_ne_zero hn
          simp only [List.length_drop]
          omega),
        List.take_append_drop]

theorem chunksOf_join (n : Nat) (l : List Nat) (hn : n ≠ 0) :
    (chunksOf n l).flatten = l :=
  chunksOf_join_aux l.length n l hn le_rfl

theorem chunksOf_length_le_aux :
    ∀ (m n : Nat) (l : List Nat), l.length ≤ m →
      ∀ c ∈ chunksOf n l, c.length ≤ n := by
  intro m
  induction m with
  | zero =>
    intro n l hl c hc
    have : l = [] := List.eq_nil_of_length_eq_zero (Nat.le_zero.mp hl)
    subst this
    rw [chunksOf_nil] at hc
    cases hc
  | succ k ih =>
    intro n l hl c hc
    by_cases hn : n = 0
    · subst hn
      rw [chunksOf_zero] at hc
      cases hc
    · by_cases hnil : l = []
      · subst hnil
        rw [chunksOf_nil] at hc
        cases hc
      · rw [chunksOf_cons n l hn hnil] at hc
        rcases List.mem_cons.mp hc with h | h
        · subst h
          simp only [List.length_take]
          exact Nat.min_le_left _ _
        · exact ih n (l.drop n) (by
            have h2 : 0 < l.length := List.length_pos.mpr hnil
            have h3 : 0 < n := Nat.pos_of_ne_zero hn
            simp only [List.length_drop]
            omega) c h

theorem chunksOf_length_le (n : Nat) (l : List Nat) :
    ∀ c ∈ chunksOf n l, c.length ≤ n :=
  chunksOf_length_le_aux l.length n l le_rfl

theorem foldl_update_data (chunks : List (List Nat)) :
    ∀ hs : Sha1, (chunks.foldl Sha1.update hs).data = hs.data ++ chunks.flatten := by
  induction chunks with
  | nil => intro hs; simp
  | cons c t ih =>
    intro hs
    simp only [List.foldl_cons, List.flatten_cons]
    rw [ih]
    simp [Sha1.update, List.append_assoc]

theorem hashReadLoop_eq_chunks (bytes : List Nat) :
    hashReadLoop Sha1.new bytes =
      (chunksOf BUFFER_SIZE bytes).foldl Sha1.update Sha1.new := by
  rw [hashReadLoop_eq_append]
  have h1 : ((chunksOf BUFFER_SIZE bytes).foldl Sha1.update Sha1.new).data
      = bytes := by
    rw [foldl_update_data]
    simp [Sha1.new, chunksOf_join BUFFER_SIZE bytes (by norm_num [BUFFER_SIZE])]
  calc (⟨Sha1.new.data ++ bytes⟩ : Sha1)
      = ⟨bytes⟩ := by simp [Sha1.new]
    _ = ⟨((chunksOf BUFFER_SIZE bytes).foldl Sha1.update Sha1.new).data⟩ := by
        rw [h1]
    _ = (chunksOf BUFFER_SIZE bytes).foldl Sha1.update Sha1.new := rfl

theorem beBytes_length : ∀ (k n : Nat), (beBytes k n).length = k
  | 0, _ => rfl
  | k + 1, n => by simp [beBytes, beBytes_length k (n / 256)]

theorem beBytes_lt : ∀ (k n : Nat), ∀ b ∈ beBytes k n, b < 256
  | 0, _ => by intro b hb; cases hb
  | k + 1, n => by
    intro b hb
    simp only [beBytes, List.mem_append, List.mem_singleton] at hb
    rcases hb with h | h
    · exact beBytes_lt k (n / 256) b h
    · subst h
      exact Nat.mod_lt _ (by norm_num)

theorem sha1Bytes_length (msg : List Nat) : (sha1Bytes msg).length = 20 := by
  unfold sha1Bytes
  simp [beBytes_length]

theorem sha1Bytes_lt (msg : List Nat) : ∀ b ∈ sha1Bytes msg, b < 256 := by
  unfold sha1Bytes
  intro b hb
  simp only [List.mem_append] at hb
  rcases hb with ((((h | h) | h) | h) | h) <;> exact beBytes_lt 4 _ b h

theorem hexChars_length : ∀ (bytes : List Nat),
    (hexChars bytes).length = 2 * bytes.length
  | [] => rfl
  | b :: t => by
    show (hexDigit (b / 16) :: hexDigit (b % 16) :: hexChars t).length
      = 2 * (b :: t).length
    simp only [List.length_cons, hexChars_length t]
    omega

theorem hexDigit_mem : ∀ n, n < 16 → hexDigit n ∈ "0123456789abcdef".data := by
  decide

theorem hexChars_mem : ∀ (bytes : List Nat), (∀ b ∈ bytes, b < 256) →
    ∀ ch ∈ hexChars bytes, ch ∈ "0123456789abcdef".data
  | [], _ => by intro ch hch; cases hch
  | b :: t, hb => by
    intro ch hch
    have hb256 : b < 256 := hb b (List.mem_cons_self _ _)
    have hch2 : ch ∈ hexDigit (b / 16) :: hexDigit (b % 16) :: hexChars t := hch
    rcases List.mem_cons.mp hch2 with h | h
    · subst h
      exact hexDigit_mem _ (Nat.div_lt_of_lt_mul (by omega))
    · rcases List.mem_cons.mp h with h2 | h2
      · subst h2
        exact hexDigit_mem _ (Nat.mod_lt _ (by norm_num))
      · exact hexChars_mem t (fun x hx => hb x (List.mem_cons_of_mem _ hx)) ch h2

theorem sha1Hex_length (msg : List Nat) : (sha1Hex msg).length = 40 := by
  show (hexChars (sha1Bytes msg)).length = 40
  rw [hexChars_length, sha1Bytes_length]

theorem sha1Hex_mem (msg : List Nat) :
    ∀ ch ∈ (sha1Hex msg).data, ch ∈ "0123456789abcdef".data :=
  hexChars_mem (sha1Bytes msg) (sha1Bytes_lt msg)

/-- C2: for every readable file content, `compute_file_sha1` returns the
SHA-1 digest of the entire content as a 40-character lowercase-hex string;
the read loop updates the hasher over successive chunks of at most 1 MiB
whose concatenation is the content; the result depends only on the bytes;
and an open/read failure yields an I/O error. -/
theorem C2_compute_file_sha1_contract (content : List Nat) :
    compute_file_sha1 (Except.ok content) = Except.ok (sha1Hex content) ∧
    hashReadLoop Sha1.new content =
      (chunksOf BUFFER_SIZE content).foldl Sha1.update Sha1.new ∧
    (chunksOf BUFFER_SIZE content).flatten = content ∧
    (∀ c ∈ chunksOf BUFFER_SIZE content, c.length ≤ BUFFER_SIZE) ∧
    (sha1Hex content).length = 40 ∧
    (∀ ch ∈ (sha1Hex content).data, ch ∈ "0123456789abcdef".data) ∧
    (∀ content2 : List Nat, content2 = content →
      compute_file_sha1 (Except.ok content2) =
        compute_file_sha1 (Except.ok content)) ∧
    (∀ msg : String,
      compute_file_sha1 (Except.error msg) =
        Except.error (ScanError.IOErr msg)) :=
  ⟨compute_file_sha1_ok content,
   hashReadLoop_eq_chunks content,
   chunksOf_join BUFFER_SIZE content (by norm_num [BUFFER_SIZE]),
   chunksOf_length_le BUFFER_SIZE content,
   sha1Hex_length content,
   sha1Hex_mem content,
   fun _ h => by rw [h],
   fun msg => compute_file_sha1_err msg⟩

theorem C2_compute_file_sha1_contract_witness :
    compute_file_sha1 (Except.ok [97, 98, 99]) =
      Except.ok (sha1Hex [97, 98, 99]) ∧
    List.length [97, 98, 99] ≤ BUFFER_SIZE ∧
    compute_file_sha1 (Except.error "denied") =
      Except.error (ScanError.IOErr "denied") := by
  obtain ⟨h1, _, _, h4, _, _, _, h8⟩ := C2_compute_file_sha1_contract [97, 98, 99]
  refine ⟨h1, ?_, h8 "denied"⟩
  have hc : chunksOf BUFFER_SIZE [97, 98, 99] = [[97, 98, 99]] := by
    rw [chunksOf_cons BUFFER_SIZE [97, 98, 99] (by norm_num [BUFFER_SIZE])
      (by simp)]
    rw [List.take_of_length_le (by norm_num [BUFFER_SIZE]),
      List.drop_eq_nil_of_le (by norm_num [BUFFER_SIZE]), chunksOf_nil]
  have h5 := h4 [97, 98, 99] (by rw [hc]; exact List.mem_singleton_self _)
  simpa using h5

/-- C8: membership in the signature list `INFECTED_HASHES` — which has 5
entries, one of them duplicated — agrees with membership in its
deduplication for every digest string. -/
theorem C8_INFECTED_HASHES_dedup :
    (∀ s : String,
      (s ∈ INFECTED_HASHES ↔ s ∈ INFECTED_HASHES.dedup) ∧
      INFECTED_HASHES.contains s = INFECTED_HASHES.dedup.contains s) ∧
    INFECTED_HASHES.length = 5 ∧
    INFECTED_HASHES.dedup.length = 4 := by
  refine ⟨fun s => ⟨List.mem_dedup.symm, ?_⟩, rfl, by decide⟩
  simp [List.contains, List.elem_eq_mem, List.mem_dedup]

theorem mem_dmapInsert (m : DMap) (k v : String) (p : String × String) :
    p ∈ dmapInsert m k v ↔ p = (k, v) ∨ (p ∈ m ∧ p.1 ≠ k) := by
  unfold dmapInsert
  simp [List.mem_filter]

theorem dmap_keys_insert (m : DMap) (k v : String)
    (h : (m.map Prod.fst).Nodup) :
    ((dmapInsert m k v).map Prod.fst).Nodup := by
  unfold dmapInsert
  simp only [List.map_cons, List.nodup_cons]
  refine ⟨?_, List.Nodup.sublist (List.Sublist.map _ (List.filter_sublist _)) h⟩
  intro hmem
  obtain ⟨p, hp, hfst⟩ := List.mem_map.mp hmem
  have h2 := List.mem_filter.mp hp
  simp only [decide_eq_true_eq] at h2
  exact h2.2 hfst

theorem key_mem_dmapInsert (m : DMap) (k v k2 : String)
    (h : k2 ∈ m.map Prod.fst) : k2 ∈ (dmapInsert m k v).map Prod.fst := by
  by_cases hk : k2 = k
  · subst hk
    exact List.mem_map.mpr ⟨(k2, v), List.mem_cons_self _ _, rfl⟩
  · obtain ⟨p, hp, hfst⟩ := List.mem_map.mp h
    refine List.mem_map.mpr ⟨p, ?_, hfst⟩
    exact List.mem_cons_of_mem _ (List.mem_filter.mpr ⟨hp, by
      simp only [decide_eq_true_eq, hfst]
      exact hk⟩)

theorem find?_filter_ne (m : DMap) (k k2 : String) (h : k2 ≠ k) :
    (m.filter (fun p => decide (p.1 ≠ k))).find? (fun p => decide (p.1 = k2))
      = m.find? (fun p => decide (p.1 = k2)) := by
  induction m with
  | nil => rfl
  | cons q t ih =>
    by_cases hq : q.1 = k2
    · have hqk : q.1 ≠ k := by rw [hq]; exact h
      rw [List.filter_cons_of_pos (by simpa using hqk)]
      rw [List.find?_cons_of_pos _ (by simpa using hq),
        List.find?_cons_of_pos _ (by simpa using hq)]
    · by_cases hqk : q.1 = k
      · rw [List.filter_cons_of_neg (by simpa using hqk)]
        rw [List.find?_cons_of_neg _ (by simpa using hq)]
        exact ih
      · rw [List.filter_cons_of_pos (by simpa using hqk)]
        rw [List.find?_cons_of_neg _ (by simpa using hq),
          List.find?_cons_of_neg _ (by simpa using hq)]
        exact ih

theorem dmapGet_insert_self (m : DMap) (k v : String) :
    dmapGet (dmapInsert m k v) k = some v := by
  unfold dmapGet dmapInsert
  rw [List.find?_cons_of_pos _ (by simp)]
  rfl

theorem dmapGet_insert_ne (m : DMap) (k v k2 : String) (h : k2 ≠ k) :
    dmapGet (dmapInsert m k v) k2 = dmapGet m k2 := by
  unfold dmapGet dmapInsert
  rw [List.find?_cons_of_neg _ (by
    simp only [decide_eq_true_eq]
    exact fun e => h e.symm)]
  rw [find?_filter_ne m k k2 h]

theorem nodup_keys_unique : ∀ (m : DMap), (m.map Prod.fst).Nodup →
    ∀ (k v v2 : String), (k, v) ∈ m → (k, v2) ∈ m → v = v2 := by
  intro m
  induction m with
  | nil =>
    intro _ k v v2 h1
    cases h1
  | cons q t ih =>
    intro hnd k v v2 h1 h2
    simp only [List.map_cons, List.nodup_cons] at hnd
    rcases List.mem_cons.mp h1 with e1 | m1
    · rcases List.mem_cons.mp h2 with e2 | m2
      · have h3 : (k, v) = (k, v2) := e1.trans e2.symm
        exact (Prod.mk.injEq _ _ _ _ ▸ h3).2
      · exfalso
        apply hnd.1
        rw [← e1]
        exact List.mem_map.mpr ⟨(k, v2), m2, rfl⟩
    · rcases List.mem_cons.mp h2 with e2 | m2
      · exfalso
        apply hnd.1
        rw [← e2]
        exact List.mem_map.mpr ⟨(k, v), m1, rfl⟩
      · exact ih hnd.2 k v v2 m1 m2

theorem perm_cons_eraseIdx {α : Type _} :
    ∀ (l : List α) (i : Nat) (e : α),
      l[i]? = some e → l.Perm (e :: l.eraseIdx i) := by
  intro l
  induction l with
  | nil =>
    intro i e h
    simp at h
  | cons a t ih =>
    intro i e h
    cases i with
    | zero =>
      simp only [List.getElem?_cons_zero, Option.some.injEq] at h
      subst h
      exact List.Perm.refl _
    | succ j =>
      simp only [List.getElem?_cons_succ] at h
      have hp := ih j e h
      show (a :: t).Perm (e :: (a :: t.eraseIdx j))
      exact List.Perm.trans (hp.cons a) (List.Perm.swap e a _)

theorem entryFiles_append (a b : List WalkEntry) :
    entryFiles (a ++ b) = entryFiles a ++ entryFiles b :=
  List.filterMap_append a b _

theorem engInv_init (listing : List WalkEntry) :
    EngInv listing (initState listing) := by
  refine ⟨⟨[], by simp [initState], by simp [initState, entryFiles],
    by simp [initState, entryFiles]⟩, rfl, List.nodup_nil, ?_, ?_, ?_, ?_⟩
  · intro kv hkv
    cases hkv
  · intro e he
    cases he
  · intro m hm
    simp [initState] at hm
  · intro er her
    simp [initState] at her

theorem engInv_step (listing : List WalkEntry) (s : EngineState)
    (c : SchedChoice) (h : EngInv listing s) :
    EngInv listing (engineStep s c) := by
  obtain ⟨⟨pre, hpre, hdisc, hperm⟩, hcomp, hnd, hsrc, hexe, hsok, hserr⟩ := h
  cases hst : s.status with
  | some r =>
    simp only [engineStep, hst]
    exact ⟨⟨pre, hpre, hdisc, hperm⟩, hcomp, hnd, hsrc, hexe, hsok, hserr⟩
  | none =>
    cases c with
    | walk =>
      cases hrem : s.remaining with
      | nil =>
        by_cases hp : s.pending.isEmpty = true
        · simp only [engineStep, hst, hrem, hp, if_true]
          have hpnil : s.pending = [] := List.isEmpty_iff.mp hp
          refine ⟨⟨pre, hrem ▸ hpre, hdisc, hperm⟩, hcomp, hnd, hsrc, hexe,
            ?_, ?_⟩
          · intro m hm
            simp only [Option.some.injEq, Except.ok.injEq] at hm
            exact ⟨hm.symm, rfl, hpnil⟩
          · intro er her
            simp at her
        · simp only [engineStep, hst, hrem, if_neg hp]
          exact ⟨⟨pre, hpre, hdisc, hperm⟩, hcomp, hnd, hsrc, hexe, hsok, hserr⟩
      | cons x rest =>
        cases x with
        | error msg =>
          simp only [engineStep, hst, hrem]
          refine ⟨⟨pre ++ [Except.error msg], ?_, ?_, ?_⟩, hcomp, hnd, hsrc,
            hexe, ?_, ?_⟩
          · rw [hpre, hrem]
            simp
          · show s.discovered = (entryFiles (pre ++ [Except.error msg])).length
            rw [entryFiles_append]
            simp [entryFiles, hdisc]
          · show (s.pending ++ s.executed).Perm
              (entryFiles (pre ++ [Except.error msg]))
            rw [entryFiles_append]
            simpa [entryFiles] using hperm
          · intro m hm
            simp at hm
          · intro er her
            simp only [Option.some.injEq, Except.error.injEq] at her
            exact ⟨msg, her.symm⟩
        | ok e =>
          by_cases hf : e.isFile = true
          · simp only [engineStep, hst, hrem, hf, if_true]
            refine ⟨⟨pre ++ [Except.ok e], ?_, ?_, ?_⟩, hcomp, hnd, hsrc,
              hexe, ?_, ?_⟩
            · rw [hpre, hrem]
              simp
            · show s.discovered + 1 = (entryFiles (pre ++ [Except.ok e])).length
              rw [entryFiles_append]
              simp [entryFiles, hf, hdisc]
            · show ((s.pending ++ [e]) ++ s.executed).Perm
                (entryFiles (pre ++ [Except.ok e]))
              rw [entryFiles_append]
              have h1 : ((s.pending ++ [e]) ++ s.executed).Perm
                  ((s.pending ++ s.executed) ++ [e]) := by
                rw [List.append_assoc, List.append_assoc]
                exact List.Perm.append_left _ List.perm_append_comm
              refine h1.trans ?_
              have h2 : entryFiles [Except.ok e] = [e] := by
                simp [entryFiles, hf]
              rw [h2]
              exact hperm.append_right [e]
            · intro m hm
              exact Option.noConfusion hm
            · intro er her
              exact Option.noConfusion her
          · simp only [engineStep, hst, hrem, if_neg hf]
            refine ⟨⟨pre ++ [Except.ok e], ?_, ?_, ?_⟩, hcomp, hnd, hsrc,
              hexe, ?_, ?_⟩
            · rw [hpre, hrem]
              simp
            · show s.discovered = (entryFiles (pre ++ [Except.ok e])).length
              rw [entryFiles_append]
              simp [entryFiles, hf, hdisc]
            · show (s.pending ++ s.executed).Perm
                (entryFiles (pre ++ [Except.ok e]))
              rw [entryFiles_append]
              simpa [entryFiles, hf] using hperm
            · intro m hm
              exact Option.noConfusion hm
            · intro er her
              exact Option.noConfusion her
    | run i =>
      cases hpi : s.pending[i]? with
      | none =>
        simp only [engineStep, hst, hpi]
        exact ⟨⟨pre, hpre, hdisc, hperm⟩, hcomp, hnd, hsrc, hexe, hsok, hserr⟩
      | some e =>
        simp only [engineStep, hst, hpi]
        have hperm2 : (s.pending.eraseIdx i ++ (s.executed ++ [e])).Perm
            (entryFiles pre) := by
          have h1 : s.pending.Perm (e :: s.pending.eraseIdx i) :=
            perm_cons_eraseIdx _ i e hpi
          have h2 : (s.pending.eraseIdx i ++ (s.executed ++ [e])).Perm
              (s.pending ++ s.executed) := by
            rw [← List.append_assoc]
            refine (List.perm_append_singleton _ _).trans ?_
            show ((e :: s.pending.eraseIdx i) ++ s.executed).Perm
              (s.pending ++ s.executed)
            exact (h1.append_right _).symm
          exact h2.trans hperm
        cases hcontent : e.content with
        | error msg =>
          have hcf : compute_file_sha1 e.content
              = Except.error (ScanError.IOErr msg) := by
            rw [hcontent]
            rfl
          simp only [runBody, hcf]
          refine ⟨⟨pre, hpre, hdisc, hperm2⟩, ?_, hnd, ?_, ?_, ?_, ?_⟩
          · show s.completed = ((s.executed ++ [e]).filter readableB).length
            rw [List.filter_append]
            have hr : readableB e = false := by
              simp [readableB, hcontent]
            simp [hr, hcomp]
          · intro kv hkv
            obtain ⟨e2, he2, b, hb1, hb2, hb3⟩ := hsrc kv hkv
            exact ⟨e2, List.mem_append_left _ he2, b, hb1, hb2, hb3⟩
          · intro e2 he2 b hb
            rcases List.mem_append.mp he2 with h2 | h2
            · exact hexe e2 h2 b hb
            · have he2e : e2 = e := by simpa using h2
              rw [he2e, hcontent] at hb
              exact Except.noConfusion hb
          · intro m hm
            exact Option.noConfusion hm
          · intro er her
            exact Option.noConfusion her
        | ok bytes =>
          have hcf : compute_file_sha1 e.content
              = Except.ok (sha1Hex bytes) := by
            rw [hcontent]
            exact compute_file_sha1_ok bytes
          simp only [runBody, hcf]
          refine ⟨⟨pre, hpre, hdisc, hperm2⟩, ?_,
            dmap_keys_insert _ _ _ hnd, ?_, ?_, ?_, ?_⟩
          · show s.completed + 1
              = ((s.executed ++ [e]).filter readableB).length
            rw [List.filter_append]
            have hr : readableB e = true := by
              simp [readableB, hcontent]
            simp [hr, hcomp]
          · intro kv hkv
            rcases (mem_dmapInsert _ _ _ kv).mp hkv with hkv1 | ⟨hkv1, _⟩
            · exact ⟨e, List.mem_append_right _ (List.mem_singleton_self e),
                bytes, hcontent, by rw [hkv1], by rw [hkv1]⟩
            · obtain ⟨e2, he2, b, hb1, hb2, hb3⟩ := hsrc kv hkv1
              exact ⟨e2, List.mem_append_left _ he2, b, hb1, hb2, hb3⟩
          · intro e2 he2 b hb
            rcases List.mem_append.mp he2 with h2 | h2
            · exact key_mem_dmapInsert _ _ _ _ (hexe e2 h2 b hb)
            · have he2e : e2 = e := by simpa using h2
              rw [he2e, hcontent] at hb
              have hbb : bytes = b := by
                injection hb
              rw [← hbb]
              exact List.mem_map.mpr
                ⟨(sha1Hex bytes, e.path), List.mem_cons_self _ _, rfl⟩
          · intro m hm
            exact Option.noConfusion hm
          · intro er her
            exact Option.noConfusion her

theorem engInv_foldl (listing : List WalkEntry) :
    ∀ (cs : List SchedChoice) (s : EngineState),
      EngInv listing s → EngInv listing (cs.foldl engineStep s)
  | [], _, h => h
  | c :: cs, s, h =>
    engInv_foldl listing cs (engineStep s c) (engInv_step listing s c h)

theorem engInv_runSched (listing : List WalkEntry) (cs : List SchedChoice) :
    EngInv listing (runSched listing cs) :=
  engInv_foldl listing cs (initState listing) (engInv_init listing)

theorem runSched_success (listing : List WalkEntry) (cs : List SchedChoice)
    (m : DMap) (hst : (runSched listing cs).status = some (Except.ok m)) :
    m = (runSched listing cs).hashes ∧
    (runSched listing cs).pending = [] ∧
    (runSched listing cs).executed.Perm (entryFiles listing) ∧
    (runSched listing cs).discovered = (entryFiles listing).length := by
  have inv := engInv_runSched listing cs
  obtain ⟨hm, hrem, hpend⟩ := inv.status_ok m hst
  obtain ⟨pre, hpre, hdisc, hperm⟩ := inv.walked
  rw [hrem, List.append_nil] at hpre
  subst hpre
  rw [hpend, List.nil_append] at hperm
  exact ⟨hm, hpend, hperm, hdisc⟩

/-- C5: for a walk listing of N regular files, all readable, a scan that
returns successfully ends with discovered = N, completed = N, and a map
built from exactly those N hashing results. -/
theorem C5_counters_complete (listing : List WalkEntry) (cs : List SchedChoice)
    (N : Nat) (m : DMap)
    (hN : (entryFiles listing).length = N)
    (hread : ∀ e ∈ entryFiles listing, readableB e = true)
    (hst : (runSched listing cs).status = some (Except.ok m)) :
    (runSched listing cs).discovered = N ∧
    (runSched listing cs).completed = N ∧
    (∀ kv ∈ m, ∃ e ∈ entryFiles listing, ∃ b,
      e.content = Except.ok b ∧ kv.1 = sha1Hex b ∧ kv.2 = e.path) ∧
    (∀ e ∈ entryFiles listing, ∀ b, e.content = Except.ok b →
      sha1Hex b ∈ m.map Prod.fst) := by
  have inv := engInv_runSched listing cs
  obtain ⟨hm, hpend, hperm, hdisc⟩ := runSched_success listing cs m hst
  refine ⟨by rw [hdisc, hN], ?_, ?_, ?_⟩
  · rw [inv.completed_eq]
    have hall : ∀ e ∈ (runSched listing cs).executed, readableB e = true :=
      fun e he => hread e (hperm.mem_iff.mp he)
    rw [List.filter_eq_self.mpr hall, hperm.length_eq, hN]
  · intro kv hkv
    rw [hm] at hkv
    obtain ⟨e, he, b, hb1, hb2, hb3⟩ := inv.hashes_src kv hkv
    exact ⟨e, hperm.mem_iff.mp he, b, hb1, hb2, hb3⟩
  · intro e he b hb
    have he2 : e ∈ (runSched listing cs).executed := hperm.mem_iff.mpr he
    have hkey := inv.exec_keys e he2 b hb
    rw [hm]
    exact hkey

theorem C5_counters_complete_witness :
    (runSched [Except.ok ⟨"/root", false, Except.ok []⟩]
      [SchedChoice.walk, SchedChoice.walk]).discovered = 0 ∧
    (runSched [Except.ok ⟨"/root", false, Except.ok []⟩]
      [SchedChoice.walk, SchedChoice.walk]).completed = 0 := by
  have h := C5_counters_complete [Except.ok ⟨"/root", false, Except.ok []⟩]
    [SchedChoice.walk, SchedChoice.walk] 0 [] rfl
    (by intro e he; simp [entryFiles] at he) rfl
  exact ⟨h.1, h.2.1⟩

theorem filterInfected_aux :
    ∀ (l : List (String × String)) (acc : DMap),
      (l.map Prod.fst).Nodup → (∀ kv ∈ l, kv.1 ∉ acc.map Prod.fst) →
      l.foldl (fun acc2 kv =>
        if INFECTED_HASHES.contains kv.1 then dmapInsert acc2 kv.1 kv.2
        else acc2) acc
      = (l.filter (fun kv => INFECTED_HASHES.contains kv.1)).reverse ++ acc := by
  intro l
  induction l with
  | nil =>
    intro acc _ _
    simp
  | cons x t ih =>
    intro acc hnd hdisj
    simp only [List.map_cons, List.nodup_cons] at hnd
    by_cases hx : INFECTED_HASHES.contains x.1 = true
    · rw [List.foldl_cons, if_pos hx]
      have hinsert : dmapInsert acc x.1 x.2 = x :: acc := by
        unfold dmapInsert
        rw [List.filter_eq_self.mpr ?_]
        · intro p hp
          simp only [decide_eq_true_eq]
          intro hpe
          exact hdisj x (List.mem_cons_self _ _)
            (hpe ▸ List.mem_map.mpr ⟨p, hp, rfl⟩)
      rw [hinsert, ih (x :: acc) hnd.2 ?_]
      · have hfx : List.filter (fun kv => INFECTED_HASHES.contains kv.1)
            (x :: t)
            = x :: List.filter (fun kv => INFECTED_HASHES.contains kv.1) t := by
          simp only [List.filter_cons, hx, if_true]
        rw [hfx]
        simp [List.append_assoc]
      · intro kv hkv
        simp only [List.map_cons, List.mem_cons]
        push_neg
        refine ⟨?_, hdisj kv (List.mem_cons_of_mem _ hkv)⟩
        intro hkve
        exact hnd.1 (hkve ▸ List.mem_map.mpr ⟨kv, hkv, rfl⟩)
    · rw [List.foldl_cons, if_neg hx]
      rw [ih acc hnd.2 (fun kv hkv => hdisj kv (List.mem_cons_of_mem _ hkv))]
      have hfx : List.filter (fun kv => INFECTED_HASHES.contains kv.1)
          (x :: t)
          = List.filter (fun kv => INFECTED_HASHES.contains kv.1) t := by
        simp only [List.filter_cons, if_neg hx]
      rw [hfx]

theorem filterInfected_eq (m : DMap) (hnd : (m.map Prod.fst).Nodup) :
    filterInfected m
      = (m.filter (fun kv => INFECTED_HASHES.contains kv.1)).reverse := by
  unfold filterInfected
  rw [filterInfected_aux m [] hnd (by intro kv _; simp)]
  simp

/-- C1: for every successful scan, the orchestrator's match mapping holds
exactly the entries of the engine's digest→path map whose digest is in
`INFECTED_HASHES`, with paths unchanged, and is empty when nothing
matches. -/
theorem C1_filter_matches (listing : List WalkEntry) (cs : List SchedChoice)
    (m : DMap) (hst : (runSched listing cs).status = some (Except.ok m)) :
    (∀ k v : String, (k, v) ∈ filterInfected m ↔
      ((k, v) ∈ m ∧ k ∈ INFECTED_HASHES)) ∧
    ((∀ kv ∈ m, kv.1 ∉ INFECTED_HASHES) → filterInfected m = []) := by
  have inv := engInv_runSched listing cs
  obtain ⟨hm, _, _⟩ := inv.status_ok m hst
  have hnd : (m.map Prod.fst).Nodup := hm ▸ inv.keys_nodup
  rw [filterInfected_eq m hnd]
  constructor
  · intro k v
    simp [List.mem_reverse, List.mem_filter, List.contains, List.elem_eq_mem]
  · intro hnone
    rw [List.filter_eq_nil_iff.mpr ?_]
    · rfl
    · intro kv hkv
      simpa [List.contains, List.elem_eq_mem] using hnone kv hkv

theorem C1_filter_matches_witness : filterInfected [] = [] := by
  have h := C1_filter_matches [] [SchedChoice.walk] [] rfl
  exact h.2 (fun kv hkv => absurd hkv (List.not_mem_nil kv))

/-- C4: a file whose hashing fails is skipped: it contributes no map entry
and no completed increment, and the failure is never escalated to the
scan-level error (which can only be a walk error); concretely, a root with
one unreadable file ends with discovered = 1, completed = 0, an empty map
and a successful return. -/
theorem C4_skip_unreadable (listing : List WalkEntry) (cs : List SchedChoice) :
    ((runSched listing cs).completed
      = (((runSched listing cs).executed).filter readableB).length) ∧
    (∀ kv ∈ (runSched listing cs).hashes,
      ∃ e ∈ (runSched listing cs).executed, ∃ b,
        e.content = Except.ok b ∧ kv.1 = sha1Hex b ∧ kv.2 = e.path) ∧
    (∀ er, (runSched listing cs).status = some (Except.error er) →
      ∃ msg, er = ScanError.WalkDir msg) ∧
    (runSched lockedListing lockedSched).discovered = 1 ∧
    (runSched lockedListing lockedSched).completed = 0 ∧
    (runSched lockedListing lockedSched).hashes = [] ∧
    (runSched lockedListing lockedSched).status = some (Except.ok []) := by
  have inv := engInv_runSched listing cs
  exact ⟨inv.completed_eq, inv.hashes_src, inv.status_err, rfl, rfl, rfl, rfl⟩

theorem C4_skip_unreadable_witness :
    (runSched lockedListing lockedSched).completed
      = (((runSched lockedListing lockedSched).executed).filter
          readableB).length ∧
    (∃ msg, ScanError.WalkDir "boom" = ScanError.WalkDir msg) := by
  refine ⟨(C4_skip_unreadable lockedListing lockedSched).1, ?_⟩
  exact (C4_skip_unreadable [Except.error "boom"] [SchedChoice.walk]).2.2.1
    (ScanError.WalkDir "boom") rfl

theorem appStep_pres (s : AppState) (ev : AppEvent)
    (h : s.scanning = false → s.total_count = 0 ∧ s.current_progress = 0) :
    (appStep s ev).scanning = false →
      (appStep s ev).total_count = 0 ∧ (appStep s ev).current_progress = 0 := by
  cases ev with
  | beginClick =>
    by_cases hb : beginEnabled s = true
    · simp only [appStep, if_pos hb]
      intro hc
      exact absurd hc (by simp)
    · simp only [appStep, if_neg hb]
      exact h
  | discover =>
    by_cases hb : scanActive s = true
    · simp only [appStep, if_pos hb]
      intro hc
      have hsc : s.scanning = true := by
        unfold scanActive at hb
        exact (Bool.and_eq_true _ _).mp hb |>.1
      have hc2 : s.scanning = false := hc
      rw [hsc] at hc2
      exact Bool.noConfusion hc2
    · simp only [appStep, if_neg hb]
      exact h
  | complete =>
    by_cases hb : scanActive s = true
    · simp only [appStep, if_pos hb]
      intro hc
      have hsc : s.scanning = true := by
        unfold scanActive at hb
        exact (Bool.and_eq_true _ _).mp hb |>.1
      have hc2 : s.scanning = false := hc
      rw [hsc] at hc2
      exact Bool.noConfusion hc2
    · simp only [appStep, if_neg hb]
      exact h
  | finish =>
    by_cases hb : scanActive s = true
    · simp only [appStep, if_pos hb]
      intro hc
      have hsc : s.scanning = true := by
        unfold scanActive at hb
        exact (Bool.and_eq_true _ _).mp hb |>.1
      have hc2 : s.scanning = false := hc
      rw [hsc] at hc2
      exact Bool.noConfusion hc2
    · simp only [appStep, if_neg hb]
      exact h

theorem appRun_zero : ∀ (evs : List AppEvent) (s : AppState),
    (s.scanning = false → s.total_count = 0 ∧ s.current_progress = 0) →
    ((evs.foldl appStep s).scanning = false →
      (evs.foldl appStep s).total_count = 0 ∧
      (evs.foldl appStep s).current_progress = 0)
  | [], _, h => h
  | ev :: evs, s, h => appRun_zero evs (appStep s ev) (appStep_pres s ev h)

/-- C6: whenever the "Begin scan" button can fire (and hence a scan can be
invoked), both progress counters are zero, so the values observed during
and after that scan count only its own files. -/
theorem C6_counters_zero_at_begin (evs : List AppEvent)
    (h : beginEnabled (appRun evs) = true) :
    (appRun evs).total_count = 0 ∧ (appRun evs).current_progress = 0 := by
  have hscan : (appRun evs).scanning = false := by
    unfold beginEnabled at h
    obtain ⟨h1, _⟩ := (Bool.and_eq_true _ _).mp h
    simpa using h1
  exact appRun_zero evs appInit (fun _ => ⟨rfl, rfl⟩) hscan

theorem C6_counters_zero_at_begin_witness :
    (appRun []).total_count = 0 ∧ (appRun []).current_progress = 0 :=
  C6_counters_zero_at_begin [] rfl

/-- C7, refuted as stated: a directory-walk error makes the engine return
while a dispatched hashing unit is still pending — the caller observes the
error return with an unfinished unit of work. -/
theorem C7_error_return_with_pending :
    (runSched badWalkListing [SchedChoice.walk, SchedChoice.walk]).status
      = some (Except.error (ScanError.WalkDir "walk failure")) ∧
    (runSched badWalkListing [SchedChoice.walk, SchedChoice.walk]).pending
      = [⟨"/r/a.jar", true, Except.ok []⟩] ∧
    (runSched badWalkListing [SchedChoice.walk, SchedChoice.walk]).pending
      ≠ [] := by
  exact ⟨rfl, rfl, by decide⟩

/-- C7, amended: on the success path the engine returns only after every
dispatched hashing unit has finished (none pending, all executed); on a
traversal error it may return with units still running. -/
theorem C7_success_joins_all (listing : List WalkEntry) (cs : List SchedChoice)
    (m : DMap) (hst : (runSched listing cs).status = some (Except.ok m)) :
    (runSched listing cs).pending = [] ∧
    (runSched listing cs).executed.Perm (entryFiles listing) := by
  obtain ⟨_, hpend, hperm, _⟩ := runSched_success listing cs m hst
  exact ⟨hpend, hperm⟩

theorem C7_success_joins_all_witness :
    (runSched [] [SchedChoice.walk]).pending = [] :=
  (C7_success_joins_all [] [SchedChoice.walk] [] rfl).1

/-- C9: throughout every scan execution the shared map associates each
digest with at most one path (its keys are pairwise distinct), and
insertion is last-writer-wins: inserting a digest replaces its previous
path and leaves other digests untouched. -/
theorem C9_digest_unique (listing : List WalkEntry) (cs : List SchedChoice) :
    (((runSched listing cs).hashes.map Prod.fst).Nodup) ∧
    (∀ (m : DMap) (k v v2 : String), (m.map Prod.fst).Nodup →
      (k, v) ∈ m → (k, v2) ∈ m → v = v2) ∧
    (∀ (m : DMap) (k v : String),
      dmapGet (dmapInsert m k v) k = some v ∧
      ∀ k2, k2 ≠ k → dmapGet (dmapInsert m k v) k2 = dmapGet m k2) :=
  ⟨(engInv_runSched listing cs).keys_nodup,
   fun m k v v2 hnd h1 h2 => nodup_keys_unique m hnd k v v2 h1 h2,
   fun m k v => ⟨dmapGet_insert_self m k v,
     fun k2 hne => dmapGet_insert_ne m k v k2 hne⟩⟩

theorem C9_digest_unique_witness :
    dmapGet (dmapInsert [("d1", "/old")] "d1" "/new") "d1" = some "/new" ∧
    dmapGet (dmapInsert [("d1", "/old")] "d1" "/new") "d2"
      = dmapGet [("d1", "/old")] "d2" ∧
    (((runSched [] []).hashes.map Prod.fst)).Nodup := by
  have h := C9_digest_unique [] []
  exact ⟨(h.2.2 [("d1", "/old")] "d1" "/new").1,
    (h.2.2 [("d1", "/old")] "d1" "/new").2 "d2" (by decide),
    h.1⟩

/-- C10: on the success path, after all hashing threads are joined no
thread still holds a clone of the shared map, the orchestrator's reference
is the only one left, and `Arc::try_unwrap(..).unwrap()` cannot panic. -/
theorem C10_tryUnwrap_safe (listing : List WalkEntry) (cs : List SchedChoice)
    (m : DMap) (hst : (runSched listing cs).status = some (Except.ok m)) :
    liveClones (runSched listing cs) = 1 ∧
    tryUnwrap (liveClones (runSched listing cs)) m = some m := by
  obtain ⟨_, hpend, _, _⟩ := runSched_success listing cs m hst
  have h1 : liveClones (runSched listing cs) = 1 := by
    unfold liveClones
    rw [hpend]
    rfl
  refine ⟨h1, ?_⟩
  rw [h1]
  rfl

theorem C10_tryUnwrap_safe_witness :
    tryUnwrap (liveClones (runSched [] [SchedChoice.walk])) [] = some [] :=
  (C10_tryUnwrap_safe [] [SchedChoice.walk] [] rfl).2

theorem removeFile_fail (fs : FS) (p : String)
    (h : fs.failing.contains p = true) :
    removeFile fs p = Except.error (ScanError.IOErr ("cannot remove " ++ p)) := by
  unfold removeFile
  rw [if_pos h]

theorem removeFile_ok (fs : FS) (p : String)
    (h : fs.failing.contains p = false) :
    removeFile fs p
      = Except.ok {fs with
          files := fs.files.filter (fun q => decide (q ≠ p))} := by
  unfold removeFile
  have h2 : ¬(fs.failing.contains p = true) := by
    rw [h]
    simp
  rw [if_neg h2]

theorem remove_files_cons_skip (fs : FS) (p : String) (ps : List String)
    (h : fileExists fs p = false) :
    remove_files fs (p :: ps) = remove_files fs ps := by
  simp only [remove_files]
  rw [if_neg (by simp [h])]

theorem remove_files_cons_del (fs : FS) (p : String) (ps : List String)
    (fs1 : FS) (h : fileExists fs p = true)
    (h2 : removeFile fs p = Except.ok fs1) :
    remove_files fs (p :: ps) = remove_files fs1 ps := by
  simp only [remove_files]
  rw [if_pos h, h2]

theorem remove_files_cons_fail (fs : FS) (p : String) (ps : List String)
    (e : ScanError) (h : fileExists fs p = true)
    (h2 : removeFile fs p = Except.error e) :
    remove_files fs (p :: ps) = (fs, Except.error e) := by
  simp only [remove_files]
  rw [if_pos h, h2]

theorem fileExists_filter_ne (fs : FS) (p q : String) (h : q ≠ p) :
    fileExists
        {fs with files := fs.files.filter (fun x => decide (x ≠ p))} q
      = fileExists fs q := by
  simp [fileExists, List.contains, List.elem_eq_mem, List.mem_filter, h]

theorem fileExists_filter_self (fs : FS) (p : String) :
    fileExists
        {fs with files := fs.files.filter (fun x => decide (x ≠ p))} p
      = false := by
  simp [fileExists, List.contains, List.elem_eq_mem, List.mem_filter]

theorem remove_files_failing : ∀ (paths : List String) (fs : FS),
    ((remove_files fs paths).1).failing = fs.failing := by
  intro paths
  induction paths with
  | nil => intro fs; rfl
  | cons p ps ih =>
    intro fs
    by_cases he : fileExists fs p = true
    · by_cases hfail : fs.failing.contains p = true
      · rw [remove_files_cons_fail fs p ps _ he (removeFile_fail fs p hfail)]
      · have hf2 : fs.failing.contains p = false := by simpa using hfail
        rw [remove_files_cons_del fs p ps _ he (removeFile_ok fs p hf2)]
        exact ih _
    · have he2 : fileExists fs p = false := by simpa using he
      rw [remove_files_cons_skip fs p ps he2]
      exact ih fs

theorem remove_files_success : ∀ (paths : List String) (fs : FS),
    (∀ q ∈ paths, fileExists fs q = true → fs.failing.contains q = false) →
    (remove_files fs paths).2 = Except.ok () ∧
    (∀ q ∈ paths, fileExists (remove_files fs paths).1 q = false) ∧
    (∀ q, q ∉ paths →
      fileExists (remove_files fs paths).1 q = fileExists fs q) := by
  intro paths
  induction paths with
  | nil =>
    intro fs _
    exact ⟨rfl, fun q hq => absurd hq (List.not_mem_nil q), fun q _ => rfl⟩
  | cons p ps ih =>
    intro fs hcond
    by_cases he : fileExists fs p = true
    · have hfail : fs.failing.contains p = false :=
        hcond p (List.mem_cons_self _ _) he
      have hrw := remove_files_cons_del fs p ps _ he (removeFile_ok fs p hfail)
      have hcond1 : ∀ q ∈ ps,
          fileExists
              {fs with files := fs.files.filter (fun x => decide (x ≠ p))} q
            = true →
          ({fs with files := fs.files.filter (fun x => decide (x ≠ p))} :
            FS).failing.contains q = false := by
        intro q hq hex
        apply hcond q (List.mem_cons_of_mem _ hq)
        by_cases hqp : q = p
        · rw [hqp]
          exact he
        · rw [← fileExists_filter_ne fs p q hqp]
          exact hex
      obtain ⟨ih1, ih2, ih3⟩ := ih _ hcond1
      refine ⟨by rw [hrw]; exact ih1, ?_, ?_⟩
      · intro q hq
        rw [hrw]
        rcases List.mem_cons.mp hq with hqp | hqs
        · subst hqp
          by_cases hqps : q ∈ ps
          · exact ih2 q hqps
          · rw [ih3 q hqps]
            exact fileExists_filter_self fs q
        · exact ih2 q hqs
      · intro q hq
        rw [hrw]
        have hqp : q ≠ p := fun hqe => hq (hqe ▸ List.mem_cons_self _ _)
        have hqs : q ∉ ps := fun hqm => hq (List.mem_cons_of_mem _ hqm)
        rw [ih3 q hqs, fileExists_filter_ne fs p q hqp]
    · have he2 : fileExists fs p = false := by simpa using he
      have hrw := remove_files_cons_skip fs p ps he2
      have hcond1 : ∀ q ∈ ps,
          fileExists fs q = true → fs.failing.contains q = false :=
        fun q hq => hcond q (List.mem_cons_of_mem _ hq)
      obtain ⟨ih1, ih2, ih3⟩ := ih fs hcond1
      refine ⟨by rw [hrw]; exact ih1, ?_, ?_⟩
      · intro q hq
        rw [hrw]
        rcases List.mem_cons.mp hq with hqp | hqs
        · subst hqp
          by_cases hqps : q ∈ ps
          · exact ih2 q hqps
          · rw [ih3 q hqps]
            exact he2
        · exact ih2 q hqs
      · intro q hq
        rw [hrw]
        exact ih3 q (fun hqm => hq (List.mem_cons_of_mem _ hqm))

theorem remove_files_append : ∀ (l1 l2 : List String) (fs : FS),
    (remove_files fs l1).2 = Except.ok () →
    remove_files fs (l1 ++ l2) = remove_files (remove_files fs l1).1 l2 := by
  intro l1
  induction l1 with
  | nil =>
    intro l2 fs _
    rfl
  | cons p ps ih =>
    intro l2 fs hok
    by_cases he : fileExists fs p = true
    · cases hrf : removeFile fs p with
      | ok fs1 =>
        have hrw := remove_files_cons_del fs p ps fs1 he hrf
        have hrw2 := remove_files_cons_del fs p (ps ++ l2) fs1 he hrf
        rw [List.cons_append, hrw2, hrw]
        exact ih l2 fs1 (by rw [hrw] at hok; exact hok)
      | error e =>
        have hrw := remove_files_cons_fail fs p ps e he hrf
        rw [hrw] at hok
        exact Except.noConfusion hok
    · have he2 : fileExists fs p = false := by simpa using he
      rw [List.cons_append, remove_files_cons_skip fs p (ps ++ l2) he2,
        remove_files_cons_skip fs p ps he2]
      exact ih l2 fs (by rw [remove_files_cons_skip fs p ps he2] at hok; exact hok)

/-- C3: paths that no longer exist are skipped silently; an existing path
is deleted and processing continues on the updated filesystem; the first
failing deletion returns that I/O error at once, leaving earlier deletions
in place and performing none of the remaining ones; and when no deletion
fails, `remove_files` succeeds with every listed path gone and every other
path untouched. -/
theorem C3_remove_files_contract (fs : FS) (p : String)
    (ps pre post paths : List String) :
    (fileExists fs p = false →
      remove_files fs (p :: ps) = remove_files fs ps) ∧
    ((∀ q ∈ paths, fileExists fs q = true → fs.failing.contains q = false) →
      (remove_files fs paths).2 = Except.ok () ∧
      (∀ q ∈ paths, fileExists (remove_files fs paths).1 q = false) ∧
      (∀ q, q ∉ paths →
        fileExists (remove_files fs paths).1 q = fileExists fs q)) ∧
    ((∀ q ∈ pre, fileExists fs q = true → fs.failing.contains q = false) →
      fileExists (remove_files fs pre).1 p = true →
      fs.failing.contains p = true →
      remove_files fs (pre ++ p :: post)
        = ((remove_files fs pre).1,
           Except.error (ScanError.IOErr ("cannot remove " ++ p)))) := by
  refine ⟨remove_files_cons_skip fs p ps, remove_files_success paths fs, ?_⟩
  intro hcond hex hfail
  have hok : (remove_files fs pre).2 = Except.ok () :=
    (remove_files_success pre fs hcond).1
  rw [remove_files_append pre (p :: post) fs hok]
  have hfail2 : ((remove_files fs pre).1).failing.contains p = true := by
    rw [remove_files_failing pre fs]
    exact hfail
  rw [remove_files_cons_fail _ p post _ hex (removeFile_fail _ p hfail2)]

theorem C3_remove_files_contract_witness :
    remove_files fs0 ("/z" :: ["/a"]) = remove_files fs0 ["/a"] ∧
    (remove_files fs0 ["/a", "/x"]).2 = Except.ok () ∧
    remove_files fs0 (["/a"] ++ "/b" :: ["/c"])
      = ((remove_files fs0 ["/a"]).1,
         Except.error (ScanError.IOErr ("cannot remove " ++ "/b"))) := by
  refine ⟨(C3_remove_files_contract fs0 "/z" ["/a"] [] [] []).1 (by decide),
    ((C3_remove_files_contract fs0 "/z" [] [] [] ["/a", "/x"]).2.1
      (by decide)).1, ?_⟩
  exact (C3_remove_files_contract fs0 "/b" [] ["/a"] ["/c"] []).2.2
    (by decide) (by decide) (by decide)

end Oracle
